import Mathlib

/-!
Verification of `src/utils/trello_parser.py` (Trello card-sort parser).

Shallow embedding. Conventions:
* JSON documents are modelled by typed records holding exactly the fields the
  parser reads (per the spec, field access on the raw document is validated at
  the decode boundary, so the typed shape is the input to the extractor).
* The ISO-8601 instant parser is an external collaborator "treated as a black
  box producing a comparable instant-in-time"; action dates are therefore
  modelled directly as integer instants (`Int`), and `isoparse` is the
  identity on them.  Likewise a list's `pos` number is modelled as `Int`:
  only its ordering matters to the code.
* Python `dict` is modelled by an association list with CPython insertion
  semantics: assignment to an existing key replaces the value but keeps the
  key's original position; a fresh key is appended.
* Python `set.add` is modelled by order-preserving duplicate-free insertion.
* Fallible steps (`KeyError`, `StopIteration`, `IndexError`) are modelled
  with `Except String`.
-/

namespace Trello

/-- A list object from the export's `lists` array: `id`, `name`, `pos`. -/
structure TrelloList where
  id : String
  name : String
  pos : Int
deriving DecidableEq, Repr

/-- A card object from the export's `cards` array: `name`, `idList`, `closed`. -/
structure Card where
  name : String
  idList : String
  closed : Bool
deriving DecidableEq, Repr

/-- The `old` sub-object of an action's `data`; the code only tests whether the
key `name` is present in it (`'name' in action_data['old']`). -/
structure ActionOld where
  hasName : Bool
deriving DecidableEq, Repr

/-- An action's `data` object.  The code tests `'listBefore' in action_data`
(membership, never the value) and accesses `action_data['old']`, which raises
`KeyError` when absent — hence the `Option`. -/
structure ActionData where
  hasListBefore : Bool
  old : Option ActionOld
deriving DecidableEq, Repr

/-- An event from the export's `actions` array; `date` is the parsed instant. -/
structure Action where
  type : String
  date : Int
  data : ActionData
deriving DecidableEq, Repr

/-- One decoded export document: the fields `parse_board` reads. -/
structure Document where
  name : String
  lists : List TrelloList
  cards : List Card
  actions : List Action
deriving DecidableEq, Repr

/-- Model of `Group` from `utils.sorts`: a named bucket with a set of card identifiers.
The set is modelled as a duplicate-free list. -/
structure Group where
  name : String
  cards : List String
deriving DecidableEq, Repr

/-- Model of `Sort` from `utils.sorts` (primed: `Sort` is a Lean keyword): a board name,
the ordered groups, and the session duration. -/
structure Sort' where
  name : String
  groups : List Group
  duration : Int
deriving DecidableEq, Repr

/-- Python `d[k]` lookup on an insertion-ordered dict. -/
def dictGet {β : Type} (d : List (String × β)) (k : String) : Option β :=
  match d with
  | [] => none
  | (k', v) :: rest => if k' = k then some v else dictGet rest k

/-- Python `d[k] = v`: an existing key keeps its position and gets the new
value; a fresh key is appended at the end. -/
def dictSet {β : Type} (d : List (String × β)) (k : String) (v : β) :
    List (String × β) :=
  match d with
  | [] => [(k, v)]
  | (k', v') :: rest =>
    if k' = k then (k, v) :: rest else (k', v') :: dictSet rest k v

/-- Python `set.add`: idempotent insertion. -/
def setAdd (s : List String) (x : String) : List String :=
  if x ∈ s then s else s ++ [x]

/-- The optional `card_mapping` argument of `parse_board`. -/
def CardMapping : Type := List (String × String)

/-- The identifier stored for a card: `card_mapping[card['name']]` when a
mapping is supplied (`KeyError` when the name is unmapped), else the raw
`card['name']`. -/
def cardIdent (card_mapping : Option CardMapping) (card : Card) :
    Except String String :=
  match card_mapping with
  | none => .ok card.name
  | some m =>
    match dictGet m card.name with
    | none => .error "KeyError: card name not in card_mapping"
    | some v => .ok v

/-- The card-assignment loop of `parse_board` (lines 40–48): for each card,
resolve its group via `idList` (`KeyError` if unknown), compute its stored
identifier, and add it to the group's card set. -/
def assignCards (card_mapping : Option CardMapping)
    (groups_by_id : List (String × Group)) (cards : List Card) :
    Except String (List (String × Group)) :=
  match cards with
  | [] => .ok groups_by_id
  | card :: rest =>
    match dictGet groups_by_id card.idList with
    | none => .error "KeyError: idList not in groups_by_id"
    | some group =>
      match cardIdent card_mapping card with
      | .error e => .error e
      | .ok ident =>
        assignCards card_mapping
          (dictSet groups_by_id card.idList
            { group with cards := setAdd group.cards ident })
          rest

/-- One step of the action filter (lines 55–66).  `Except` because
`action_data['old']` raises `KeyError` on an `updateList` action without an
`old` key; `.ok b` says whether the action is retained. -/
def validAction (action : Action) : Except String Bool :=
  if action.type = "updateCard" then .ok action.data.hasListBefore
  else if action.type = "createList" then .ok true
  else if action.type = "updateList" then
    match action.data.old with
    | none => .error "KeyError: old not in action data"
    | some old => .ok old.hasName
  else .ok false

/-- The action-filter loop building `valid_actions` (lines 54–66). -/
def validActions (actions : List Action) : Except String (List Action) :=
  match actions with
  | [] => .ok []
  | action :: rest =>
    match validAction action with
    | .error e => .error e
    | .ok b =>
      match validActions rest with
      | .error e => .error e
      | .ok vs => .ok (if b then action :: vs else vs)

/-- The comparison used by `trello_lists.sort(key=lambda x: x['pos'])`. -/
def posLe (a b : TrelloList) : Prop := a.pos ≤ b.pos

instance : DecidableRel posLe := fun a b => Int.decLe a.pos b.pos

instance : IsTotal TrelloList posLe := ⟨fun a b => Int.le_total a.pos b.pos⟩

instance : IsTrans TrelloList posLe := ⟨fun _ _ _ => Int.le_trans⟩

/-- The comparison used by `actions.sort(key=lambda x: isoparse(x['date']))`. -/
def dateLe (a b : Action) : Prop := a.date ≤ b.date

instance : DecidableRel dateLe := fun a b => Int.decLe a.date b.date

instance : IsTotal Action dateLe := ⟨fun a b => Int.le_total a.date b.date⟩

instance : IsTrans Action dateLe := ⟨fun _ _ _ => Int.le_trans⟩

/-- Model of `trello_lists.sort(key=lambda x: x['pos'])`: Python's `list.sort` is a
stable ascending sort, and a stable sort's output is uniquely determined by
the key order and the original order on ties, so any stable sort models it
exactly; insertion sort is used because it is structurally recursive. -/
def sortLists (lists : List TrelloList) : List TrelloList :=
  lists.insertionSort posLe

/-- Model of `actions.sort(key=lambda x: isoparse(x['date']))`: the same stable
ascending sort, on the parsed instants. -/
def sortActions (actions : List Action) : List Action :=
  actions.insertionSort dateLe

/-- Model of `parse_board` (lines 10–82), as a function of the decoded document. -/
def parse_board (data : Document) (card_mapping : Option CardMapping) :
    Except String Sort' :=
  let trello_lists := sortLists data.lists
  let groups_by_id := trello_lists.foldl
    (fun gb l => dictSet gb l.id (Group.mk l.name [])) []
  let cards := data.cards.filter (fun card => !card.closed)
  match assignCards card_mapping groups_by_id cards with
  | .error e => .error e
  | .ok groups_by_id =>
    let actions := sortActions data.actions
    match validActions actions with
    | .error e => .error e
    | .ok valid_actions =>
      match valid_actions.find? (fun a => a.type == "createList") with
      | none => .error "StopIteration: no createList action"
      | some first_list =>
        match actions.getLast? with
        | none => .error "IndexError: actions is empty"
        | some last_action =>
          let total_sort_time := last_action.date - first_list.date
          let groups := (groups_by_id.map Prod.snd).filter
            (fun g => !g.cards.isEmpty)
          .ok (Sort'.mk data.name groups total_sort_time)

/-- A directory entry as seen by `get_paths_to_jsons_in_dir`: its file name,
whether it is a plain file, and (for export files) the decoded document the
batch driver would obtain by opening and `json.load`-ing it. -/
structure DirEntry where
  fileName : String
  isFile : Bool
  content : Document
deriving DecidableEq, Repr

/-- Python's `str.endswith`: the suffix's code points end the string's. -/
def strEndsWith (s suffix : String) : Bool :=
  suffix.toList.isSuffixOf s.toList

/-- Model of `get_paths_to_jsons_in_dir` (lines 85–97): immediate children that are
plain files whose name ends in `.json`; no recursion. -/
def get_paths_to_jsons_in_dir (entries : List DirEntry) : List DirEntry :=
  entries.filter (fun e => e.isFile && strEndsWith e.fileName ".json")

/-- The collection loop of `parse_sorts_in_dir`: parse each selected file in
order, aborting the whole batch on the first failure. -/
def parseAll (card_mapping : Option CardMapping) (entries : List DirEntry) :
    Except String (List Sort') :=
  match entries with
  | [] => .ok []
  | e :: rest =>
    match parse_board e.content card_mapping with
    | .error err => .error err
    | .ok s =>
      match parseAll card_mapping rest with
      | .error err => .error err
      | .ok sorts => .ok (s :: sorts)

/-- Model of `parse_sorts_in_dir` (lines 100–117). -/
def parse_sorts_in_dir (entries : List DirEntry)
    (card_mapping : Option CardMapping) : Except String (List Sort') :=
  parseAll card_mapping (get_paths_to_jsons_in_dir entries)

/-- The retention predicate of the action filter, written out as a Boolean
predicate following the spec's description of the three retained action
kinds, with the type strings the code actually compares against
(`updateCard`, `createList`, `updateList`). -/
def retainedPerSpec (a : Action) : Bool :=
  (a.type == "updateCard" && a.data.hasListBefore) ||
  (a.type == "createList") ||
  (a.type == "updateList" &&
    (match a.data.old with
     | none => false
     | some old => old.hasName))

/-- The spec's worked scenario: two lists (`pos` 2 "Done", `pos` 1 "Todo"),
one open card in "Todo", one closed card in "Done", and actions
createList@0, createList@1, card-move@2. -/
def exampleDoc : Document :=
  { name := "board"
    lists := [⟨"L2", "Done", 2⟩, ⟨"L1", "Todo", 1⟩]
    cards := [⟨"card", "L1", false⟩, ⟨"dead", "L2", true⟩]
    actions := [⟨"createList", 0, ⟨false, none⟩⟩,
                ⟨"createList", 1, ⟨false, none⟩⟩,
                ⟨"updateCard", 2, ⟨true, none⟩⟩] }

/-- Like `exampleDoc` but with one later action of a kind that is not retained. -/
def exampleDocLater : Document :=
  { exampleDoc with
    actions := exampleDoc.actions ++ [⟨"commentCard", 5, ⟨false, none⟩⟩] }

/-- A document whose `lists` array repeats the list id "B": the dict
`groups_by_id` then keeps the first insertion position of key "B" while its
value is replaced by the later list's group. -/
def docDup : Document :=
  { name := "b"
    lists := [⟨"A", "X", 2⟩, ⟨"B", "Y", 1⟩, ⟨"B", "Z", 3⟩]
    cards := [⟨"c1", "B", false⟩, ⟨"c2", "A", false⟩]
    actions := [⟨"createList", 0, ⟨false, none⟩⟩] }

/-- Like `exampleDoc` but with its list-creation actions removed. -/
def docNoCreate : Document :=
  { exampleDoc with actions := [⟨"updateCard", 2, ⟨true, none⟩⟩] }

/-- A card mapping covering `exampleDoc`'s open card. -/
def exampleMapping : CardMapping := [("card", "ID7")]

/-- A mixed bag of actions for exercising the action filter. -/
def exampleActions : List Action :=
  [⟨"createList", 0, ⟨false, none⟩⟩,
   ⟨"updateCard", 1, ⟨true, none⟩⟩,
   ⟨"updateCard", 2, ⟨false, none⟩⟩,
   ⟨"updateList", 3, ⟨false, some ⟨true⟩⟩⟩,
   ⟨"updateList", 4, ⟨false, some ⟨false⟩⟩⟩,
   ⟨"commentCard", 5, ⟨false, none⟩⟩]

/-- A directory with one non-JSON file, two valid exports, and a
subdirectory whose name ends in `.json`. -/
def exampleDir : List DirEntry :=
  [⟨"readme.txt", true, exampleDoc⟩,
   ⟨"a.json", true, exampleDoc⟩,
   ⟨"nested.json", false, exampleDoc⟩,
   ⟨"b.json", true, exampleDocLater⟩]

end Trello

namespace Trello

/-! ## Helper lemmas -/

/-- Inversion of `parse_board`: a successful run determines the intermediate
results of each stage. -/
theorem parse_board_eq_ok {data : Document} {cm : Option CardMapping}
    {s : Sort'} (h : parse_board data cm = .ok s) :
    ∃ gb va first_list last_action,
      assignCards cm
          ((sortLists data.lists).foldl
            (fun gb l => dictSet gb l.id (Group.mk l.name [])) [])
          (data.cards.filter (fun card => !card.closed)) = .ok gb ∧
      validActions (sortActions data.actions) = .ok va ∧
      va.find? (fun a => a.type == "createList") = some first_list ∧
      (sortActions data.actions).getLast? = some last_action ∧
      s = Sort'.mk data.name
        ((gb.map Prod.snd).filter (fun g => !g.cards.isEmpty))
        (last_action.date - first_list.date) := by
  unfold parse_board at h
  dsimp only at h
  split at h
  · exact absurd h (by simp)
  · rename_i gb hgb
    split at h
    · exact absurd h (by simp)
    · rename_i va hva
      split at h
      · exact absurd h (by simp)
      · rename_i first hfirst
        split at h
        · exact absurd h (by simp)
        · rename_i last hlast
          refine ⟨gb, va, first, last, hgb, hva, hfirst, hlast, ?_⟩
          cases h
          rfl

/-- A successful filter test returns exactly the spec's retention verdict. -/
theorem validAction_ok {a : Action} {b : Bool} (h : validAction a = .ok b) :
    b = retainedPerSpec a := by
  unfold validAction at h
  unfold retainedPerSpec
  split at h
  · rename_i h1
    cases h
    simp [h1]
  · split at h
    · rename_i h1 h2
      cases h
      simp [h1, h2]
    · split at h
      · split at h
        · exact absurd h (by simp)
        · rename_i h1 h2 h3 x old hold
          cases h
          simp [h1, h2, h3]
      · rename_i h1 h2 h3
        cases h
        simp [h1, h2, h3]

/-- A successful run of the action-filter loop returns exactly the actions
satisfying the retention predicate, in order. -/
theorem validActions_ok :
    ∀ {l va : List Action}, validActions l = .ok va →
      va = l.filter retainedPerSpec := by
  intro l
  induction l with
  | nil => intro va h; cases h; rfl
  | cons a rest ih =>
    intro va h
    unfold validActions at h
    split at h
    · exact absurd h (by simp)
    · rename_i b hb
      split at h
      · exact absurd h (by simp)
      · rename_i vs hvs
        cases h
        rw [List.filter_cons, ← validAction_ok hb, ih hvs]

/-- Filtering by a predicate implied by `p` does not change `find? p`. -/
theorem find?_filter_of_imp {α : Type} (p q : α → Bool)
    (himp : ∀ a, p a = true → q a = true) :
    ∀ l : List α, (l.filter q).find? p = l.find? p := by
  intro l
  induction l with
  | nil => rfl
  | cons a rest ih =>
    by_cases hq : q a = true
    · rw [List.filter_cons_of_pos hq]
      by_cases hp : p a = true
      · rw [List.find?_cons_of_pos _ hp, List.find?_cons_of_pos _ hp]
      · rw [List.find?_cons_of_neg _ (by simpa using hp),
          List.find?_cons_of_neg _ (by simpa using hp), ih]
    · have hp : ¬ p a = true := fun hpa => hq (himp a hpa)
      rw [List.filter_cons_of_neg (by simpa using hq),
        List.find?_cons_of_neg _ (by simpa using hp), ih]

/-- Every `createList` action is retained, so the earliest retained
list-creation action is the earliest `createList` action overall. -/
theorem validActions_find_createList {l va : List Action}
    (h : validActions l = .ok va) :
    va.find? (fun a => a.type == "createList") =
      l.find? (fun a => a.type == "createList") := by
  rw [validActions_ok h]
  apply find?_filter_of_imp
  intro a ha
  unfold retainedPerSpec
  rw [ha]
  simp

/-- The date-sorted action sequence is ascending in its parsed instants. -/
theorem sortActions_pairwise (l : List Action) :
    (sortActions l).Pairwise dateLe :=
  List.sorted_insertionSort dateLe l

/-- In an ascending list, every element's date is at most the last one's. -/
theorem date_le_getLast {l : List Action} (hs : l.Pairwise dateLe)
    {a : Action} (ha : a ∈ l) {z : Action} (hz : l.getLast? = some z) :
    a.date ≤ z.date := by
  obtain ⟨ys, rfl⟩ := List.getLast?_eq_some_iff.mp hz
  rcases List.mem_append.mp ha with h | h
  · exact (List.pairwise_append.mp hs).2.2 a h z (by simp)
  · simp only [List.mem_singleton] at h
    subst h
    exact le_refl _

/-- A successful dict lookup yields a member pair. -/
theorem dictGet_mem {β : Type} :
    ∀ {d : List (String × β)} {k : String} {v : β},
      dictGet d k = some v → (k, v) ∈ d := by
  intro d
  induction d with
  | nil => intro k v h; exact absurd h (by simp [dictGet])
  | cons p rest ih =>
    intro k v h
    unfold dictGet at h
    split at h
    · rename_i hk
      cases h
      simp [← hk]
    · exact List.mem_cons_of_mem _ (ih h)

/-- A member of an updated dict is an old member or the new pair. -/
theorem mem_dictSet {β : Type} :
    ∀ {d : List (String × β)} {k : String} {v : β} {p : String × β},
      p ∈ dictSet d k v → p ∈ d ∨ p = (k, v) := by
  intro d
  induction d with
  | nil => intro k v p h; simp [dictSet] at h; exact Or.inr h
  | cons q rest ih =>
    intro k v p h
    unfold dictSet at h
    split at h
    · rcases List.mem_cons.mp h with h1 | h1
      · exact Or.inr h1
      · exact Or.inl (List.mem_cons_of_mem _ h1)
    · rcases List.mem_cons.mp h with h1 | h1
      · exact Or.inl (h1 ▸ List.mem_cons_self _ _)
      · rcases ih h1 with h2 | h2
        · exact Or.inl (List.mem_cons_of_mem _ h2)
        · exact Or.inr h2

/-- A member of a set after insertion is an old member or the new element. -/
theorem mem_setAdd {s : List String} {x c : String} (h : c ∈ setAdd s x) :
    c ∈ s ∨ c = x := by
  unfold setAdd at h
  split at h
  · exact Or.inl h
  · rcases List.mem_append.mp h with h1 | h1
    · exact Or.inl h1
    · simp at h1
      exact Or.inr h1

/-- Every group created by the list-processing loop starts with no cards. -/
theorem foldl_dictSet_cards_empty :
    ∀ (lists : List TrelloList) (acc : List (String × Group)),
      (∀ q ∈ acc, q.2.cards = []) →
      ∀ p ∈ lists.foldl
        (fun gb l => dictSet gb l.id (Group.mk l.name [])) acc,
        p.2.cards = [] := by
  intro lists
  induction lists with
  | nil => intro acc hacc p hp; exact hacc p hp
  | cons l rest ih =>
    intro acc hacc p hp
    refine ih _ ?_ p hp
    intro q hq
    rcases mem_dictSet hq with h1 | h1
    · exact hacc q h1
    · rw [h1]

/-- Provenance of card identifiers: every identifier in any group after the
card-assignment loop was already present in the initial dict or is the
stored identifier of one of the processed cards. -/
theorem assignCards_cards_from (cm : Option CardMapping) :
    ∀ (cards : List Card) (gb gb' : List (String × Group)),
      assignCards cm gb cards = .ok gb' →
      ∀ p ∈ gb', ∀ c ∈ p.2.cards,
        (∃ q ∈ gb, c ∈ q.2.cards) ∨
        (∃ card ∈ cards, cardIdent cm card = .ok c) := by
  intro cards
  induction cards with
  | nil =>
    intro gb gb' h p hp c hc
    cases h
    exact Or.inl ⟨p, hp, hc⟩
  | cons card rest ih =>
    intro gb gb' h p hp c hc
    unfold assignCards at h
    split at h
    · exact absurd h (by simp)
    · rename_i group hget
      split at h
      · exact absurd h (by simp)
      · rename_i ident hident
        rcases ih _ _ h p hp c hc with ⟨q, hq, hcq⟩ | ⟨card', hm, hi⟩
        · rcases mem_dictSet hq with h1 | h1
          · exact Or.inl ⟨q, h1, hcq⟩
          · rw [h1] at hcq
            rcases mem_setAdd hcq with h2 | h2
            · exact Or.inl ⟨(card.idList, group), dictGet_mem hget, h2⟩
            · exact Or.inr ⟨card, List.mem_cons_self _ _, h2 ▸ hident⟩
        · exact Or.inr ⟨card', List.mem_cons_of_mem _ hm, hi⟩

/-- If any processed card's name is unmapped, card assignment never
succeeds. -/
theorem assignCards_unmapped (m : CardMapping) :
    ∀ (cards : List Card) (gb : List (String × Group)),
      (∃ card ∈ cards, dictGet m card.name = none) →
      ∀ gb', assignCards (some m) gb cards ≠ .ok gb' := by
  intro cards
  induction cards with
  | nil => intro gb h gb'; simp at h
  | cons card rest ih =>
    intro gb h gb' hok
    unfold assignCards at hok
    split at hok
    · exact absurd hok (by simp)
    · rename_i group hget
      split at hok
      · exact absurd hok (by simp)
      · rename_i ident hident
        rcases h with ⟨card', hm, hnone⟩
        rcases List.mem_cons.mp hm with h1 | h1
        · subst h1
          unfold cardIdent at hident
          simp [hnone] at hident
        · exact ih _ ⟨card', h1, hnone⟩ gb' hok

/-- The collection loop of the batch driver parses each selected entry in
order. -/
theorem parseAll_forall₂ (cm : Option CardMapping) :
    ∀ (entries : List DirEntry) (sorts : List Sort'),
      parseAll cm entries = .ok sorts →
      List.Forall₂ (fun e s => parse_board e.content cm = .ok s)
        entries sorts := by
  intro entries
  induction entries with
  | nil => intro sorts h; cases h; exact List.Forall₂.nil
  | cons e rest ih =>
    intro sorts h
    unfold parseAll at h
    split at h
    · exact absurd h (by simp)
    · rename_i s hs
      split at h
      · exact absurd h (by simp)
      · rename_i ss hss
        cases h
        exact List.Forall₂.cons hs (ih ss hss)

/-- Appending a fresh binding does not make an absent key present. -/
theorem dictGet_append_single {β : Type} :
    ∀ (d : List (String × β)) (k k' : String) (v : β),
      dictGet d k' = none → k ≠ k' →
      dictGet (d ++ [(k, v)]) k' = none := by
  intro d
  induction d with
  | nil =>
    intro k k' v _ hk
    simp [dictGet, hk]
  | cons p rest ih =>
    intro k k' v h hk
    obtain ⟨pk, pv⟩ := p
    have h' : (if pk = k' then some pv else dictGet rest k') = none := h
    have hgoal : dictGet (((pk, pv) :: rest) ++ [(k, v)]) k'
        = if pk = k' then some pv else dictGet (rest ++ [(k, v)]) k' := rfl
    rw [hgoal]
    by_cases hpk : pk = k'
    · rw [if_pos hpk] at h'
      exact absurd h' (by simp)
    · rw [if_neg hpk] at h'
      rw [if_neg hpk]
      exact ih k k' v h' hk

/-- Setting an absent key appends the binding at the end. -/
theorem dictSet_fresh {β : Type} :
    ∀ (d : List (String × β)) (k : String) (v : β),
      dictGet d k = none → dictSet d k v = d ++ [(k, v)] := by
  intro d
  induction d with
  | nil => intro k v _; rfl
  | cons p rest ih =>
    intro k v h
    unfold dictGet at h
    unfold dictSet
    split at h
    · exact absurd h (by simp)
    · rename_i hne
      rw [if_neg hne, ih k v h]
      rfl

/-- With pairwise-distinct list ids, the group-creation loop lays the
bindings out in exactly the processed order. -/
theorem foldl_groups_eq :
    ∀ (lists : List TrelloList) (acc : List (String × Group)),
      (lists.map TrelloList.id).Nodup →
      (∀ l ∈ lists, dictGet acc l.id = none) →
      lists.foldl (fun gb l => dictSet gb l.id (Group.mk l.name [])) acc
        = acc ++ lists.map (fun l => (l.id, Group.mk l.name [])) := by
  intro lists
  induction lists with
  | nil => intro acc _ _; simp
  | cons l rest ih =>
    intro acc hnd hacc
    rw [List.foldl_cons,
      dictSet_fresh acc l.id (Group.mk l.name []) (hacc l (by simp))]
    have hnd' : (rest.map TrelloList.id).Nodup := (List.nodup_cons.mp hnd).2
    have hne : ∀ r ∈ rest, l.id ≠ r.id := by
      intro r hr heq
      exact (List.nodup_cons.mp hnd).1 (heq ▸ List.mem_map_of_mem TrelloList.id hr)
    rw [ih _ hnd' (fun r hr =>
      dictGet_append_single acc l.id r.id _ (hacc r (List.mem_cons_of_mem _ hr))
        (hne r hr))]
    simp

/-- Replacing a present key's value by one with the same name preserves the
dict's sequence of (key, group name) pairs. -/
theorem dictSet_map_name :
    ∀ (gb : List (String × Group)) (k : String) (g g' : Group),
      dictGet gb k = some g → g'.name = g.name →
      (dictSet gb k g').map (fun p => (p.1, p.2.name))
        = gb.map (fun p => (p.1, p.2.name)) := by
  intro gb
  induction gb with
  | nil => intro k g g' h _; exact absurd h (by simp [dictGet])
  | cons p rest ih =>
    intro k g g' h hname
    unfold dictGet at h
    unfold dictSet
    split at h
    · rename_i hk
      cases h
      rw [if_pos hk]
      simp [← hk, hname]
    · rename_i hk
      rw [if_neg hk, List.map_cons, List.map_cons, ih k g g' h hname]

/-- The card-assignment loop never changes the dict's keys or group names,
only the card sets. -/
theorem assignCards_map_name (cm : Option CardMapping) :
    ∀ (cards : List Card) (gb gb' : List (String × Group)),
      assignCards cm gb cards = .ok gb' →
      gb'.map (fun p => (p.1, p.2.name)) = gb.map (fun p => (p.1, p.2.name)) := by
  intro cards
  induction cards with
  | nil => intro gb gb' h; cases h; rfl
  | cons card rest ih =>
    intro gb gb' h
    unfold assignCards at h
    split at h
    · exact absurd h (by simp)
    · rename_i group hget
      split at h
      · exact absurd h (by simp)
      · rename_i ident hident
        rw [ih _ _ h,
          dictSet_map_name gb card.idList group
            { group with cards := setAdd group.cards ident } hget rfl]

/-- Filtering a list of groups whose names agree positionally with a list of
source lists selects an order-preserving subsequence of those lists. -/
theorem filter_corresponds :
    ∀ (vs : List Group) (ws : List TrelloList),
      vs.map Group.name = ws.map TrelloList.name →
      ∃ ls : List TrelloList, ls.Sublist ws ∧
        (vs.filter (fun g => !g.cards.isEmpty)).map Group.name
          = ls.map TrelloList.name := by
  intro vs
  induction vs with
  | nil =>
    intro ws h
    have : ws = [] := by
      cases ws with
      | nil => rfl
      | cons w ws' => exact absurd h (by simp)
    subst this
    exact ⟨[], List.Sublist.refl [], rfl⟩
  | cons g vs' ih =>
    intro ws h
    cases ws with
    | nil => exact absurd h (by simp)
    | cons w ws' =>
      simp only [List.map_cons, List.cons.injEq] at h
      obtain ⟨hn, hrest⟩ := h
      obtain ⟨ls', hsub', hmap'⟩ := ih ws' hrest
      by_cases hp : (!g.cards.isEmpty) = true
      · refine ⟨w :: ls', List.Sublist.cons₂ w hsub', ?_⟩
        rw [List.filter_cons, if_pos hp]
        simp [hn, hmap']
      · refine ⟨ls', List.Sublist.cons w hsub', ?_⟩
        rw [List.filter_cons, if_neg hp]
        exact hmap'

/-! ## Claims -/

/-- C1: for every document on which extraction succeeds, the returned Sort's
duration equals the parsed date of the chronologically last action in the
full date-sorted actions array minus the parsed date of the earliest
retained list-creation action (every `createList` action is retained, so
that is the earliest `createList` action of the date-sorted sequence), even
when actions of other kinds occur later than the last retained-kind
action. -/
theorem parse_board_duration_eq {data : Document} {cm : Option CardMapping}
    {s : Sort'} (h : parse_board data cm = .ok s) :
    ∃ first_list last_action,
      (sortActions data.actions).find? (fun a => a.type == "createList")
        = some first_list ∧
      (sortActions data.actions).getLast? = some last_action ∧
      s.duration = last_action.date - first_list.date := by
  obtain ⟨gb, va, first, last, hgb, hva, hfirst, hlast, rfl⟩ := parse_board_eq_ok h
  exact ⟨first, last, by rw [← validActions_find_createList hva]; exact hfirst,
    hlast, rfl⟩

/-- C1 witness: on the spec scenario extended with a later, non-retained
`commentCard` action at instant 5, the duration is measured to that very
last action. -/
theorem parse_board_duration_eq_witness :
    ∃ first_list last_action,
      (sortActions exampleDocLater.actions).find?
          (fun a => a.type == "createList") = some first_list ∧
      (sortActions exampleDocLater.actions).getLast? = some last_action ∧
      (Sort'.mk "board" [Group.mk "Todo" ["card"]] 5).duration
        = last_action.date - first_list.date :=
  @parse_board_duration_eq exampleDocLater none
    (Sort'.mk "board" [Group.mk "Todo" ["card"]] 5) (by rfl)

/-- C10: for every document on which extraction succeeds, the duration is
non-negative: the start instant is the date of an element of the
date-sorted sequence and the end instant is the date of its last
element. -/
theorem parse_board_duration_nonneg {data : Document} {cm : Option CardMapping}
    {s : Sort'} (h : parse_board data cm = .ok s) : 0 ≤ s.duration := by
  obtain ⟨gb, va, first, last, hgb, hva, hfirst, hlast, rfl⟩ := parse_board_eq_ok h
  have hmem : first ∈ va := List.mem_of_find?_eq_some hfirst
  rw [validActions_ok hva] at hmem
  have hmem' : first ∈ sortActions data.actions := (List.mem_filter.mp hmem).1
  have hle : first.date ≤ last.date :=
    date_le_getLast (sortActions_pairwise data.actions) hmem' hlast
  dsimp only
  omega

/-- C10 witness: on the spec scenario, the duration is non-negative. -/
theorem parse_board_duration_nonneg_witness :
    (0 : Int) ≤ (Sort'.mk "board" [Group.mk "Todo" ["card"]] 2).duration :=
  @parse_board_duration_nonneg exampleDoc none
    (Sort'.mk "board" [Group.mk "Todo" ["card"]] 2) (by rfl)

/-- C9: the extractor is a deterministic function of its input document:
two runs on the same document with no mapping return equal Sorts. -/
theorem parse_board_deterministic (data : Document) (s₁ s₂ : Sort')
    (h₁ : parse_board data none = .ok s₁)
    (h₂ : parse_board data none = .ok s₂) : s₁ = s₂ := by
  rw [h₁] at h₂
  exact Except.ok.inj h₂

/-- C9 witness: two runs on the spec scenario agree. -/
theorem parse_board_deterministic_witness :
    Sort'.mk "board" [Group.mk "Todo" ["card"]] 2
      = Sort'.mk "board" [Group.mk "Todo" ["card"]] 2 :=
  parse_board_deterministic exampleDoc _ _ (by rfl) (by rfl)

/-- C5: for every document on which extraction succeeds, every Group in the
returned Sort has a non-empty card set. -/
theorem parse_board_groups_nonempty {data : Document} {cm : Option CardMapping}
    {s : Sort'} (h : parse_board data cm = .ok s) :
    ∀ g ∈ s.groups, g.cards ≠ [] := by
  obtain ⟨gb, va, first, last, hgb, hva, hfirst, hlast, rfl⟩ := parse_board_eq_ok h
  intro g hg hnil
  have h2 := (List.mem_filter.mp hg).2
  rw [hnil] at h2
  simp at h2

/-- C5 witness: on the spec scenario, the single returned group "Todo" has a
non-empty card set. -/
theorem parse_board_groups_nonempty_witness :
    Group.mk "Todo" ["card"] ∈
      (Sort'.mk "board" [Group.mk "Todo" ["card"]] 2).groups ∧
    (Group.mk "Todo" ["card"]).cards ≠ [] :=
  ⟨by simp, @parse_board_groups_nonempty exampleDoc none
    (Sort'.mk "board" [Group.mk "Todo" ["card"]] 2) (by rfl) _ (by simp)⟩

/-- C6: closed cards contribute nothing: extraction of a document equals
extraction of the same document with every closed card deleted, so no
closed card ever contributes an identifier to any returned Group's card
set, regardless of its `idList`. -/
theorem parse_board_ignores_closed (data : Document) (cm : Option CardMapping) :
    parse_board
        { data with cards := data.cards.filter (fun card => !card.closed) } cm
      = parse_board data cm := by
  unfold parse_board
  dsimp only
  rw [List.filter_filter]
  simp only [Bool.and_self]

/-- C7: for every document whose actions array contains zero list-creation
events, extraction fails and returns no Sort, whatever the lists, cards and
other actions are. -/
theorem parse_board_requires_createList {data : Document}
    {cm : Option CardMapping}
    (h : ∀ a ∈ data.actions, a.type ≠ "createList") :
    ∀ s : Sort', parse_board data cm ≠ .ok s := by
  intro s hok
  obtain ⟨gb, va, first, last, hgb, hva, hfirst, hlast, _⟩ := parse_board_eq_ok hok
  have h1 : first.type = "createList" := by simpa using List.find?_some hfirst
  have h2 : first ∈ va := List.mem_of_find?_eq_some hfirst
  rw [validActions_ok hva] at h2
  have h3 : first ∈ sortActions data.actions := (List.mem_filter.mp h2).1
  have h4 : first ∈ data.actions := by
    unfold sortActions at h3
    exact (List.mem_insertionSort dateLe).mp h3
  exact h first h4 h1

/-- C7 witness: the spec scenario with its list-creation actions removed has
no `createList` action and fails to extract. -/
theorem parse_board_requires_createList_witness :
    (∀ a ∈ docNoCreate.actions, a.type ≠ "createList") ∧
    parse_board docNoCreate none ≠ .ok (Sort'.mk "board" [] 0) :=
  ⟨by decide, parse_board_requires_createList (by decide) _⟩

/-- C2 counterexample: an action whose type string is literally
"card updated" — with a `listBefore` field present in its data — is dropped
by the filter (the code compares against "updateCard"), so the claim's
"retains exactly" fails at this input. -/
theorem validActions_type_string_counterexample :
    (Action.mk "card updated" 0 (ActionData.mk true none)).type
        = "card updated" ∧
    (Action.mk "card updated" 0 (ActionData.mk true none)).data.hasListBefore
        = true ∧
    validActions [Action.mk "card updated" 0 (ActionData.mk true none)]
        = .ok [] :=
  ⟨rfl, rfl, rfl⟩

/-- C2 (amended): whenever the action filter completes without error, it
retains exactly those actions whose type string is "updateCard" with a
`listBefore` field in their data, "createList", or "updateList" with a
`name` field in their data's `old` sub-object, and drops every other
action. -/
theorem validActions_retains_exactly {l va : List Action}
    (h : validActions l = .ok va) : va = l.filter retainedPerSpec :=
  validActions_ok h

/-- C2 witness: the filter keeps exactly the retained-kind actions of a
mixed concrete action list. -/
theorem validActions_retains_exactly_witness :
    validActions exampleActions = .ok (exampleActions.filter retainedPerSpec) := by
  have h : validActions exampleActions
      = .ok [⟨"createList", 0, ⟨false, none⟩⟩,
             ⟨"updateCard", 1, ⟨true, none⟩⟩,
             ⟨"updateList", 3, ⟨false, some ⟨true⟩⟩⟩] := by rfl
  rw [h, validActions_retains_exactly h]

/-- C4: with a supplied card mapping, every card identifier stored in every
returned Group is a value of the mapping, never a raw card name; and if any
non-closed card's name is absent from the mapping, extraction fails and
returns no Sort at all. -/
theorem parse_board_mapping (data : Document) (m : CardMapping) :
    (∀ s : Sort', parse_board data (some m) = .ok s →
      ∀ g ∈ s.groups, ∀ c ∈ g.cards, ∃ k, dictGet m k = some c) ∧
    ((∃ card ∈ data.cards, card.closed = false ∧ dictGet m card.name = none) →
      ∀ s : Sort', parse_board data (some m) ≠ .ok s) := by
  constructor
  · intro s hok g hg c hc
    obtain ⟨gb, va, first, last, hgb, hva, hfirst, hlast, rfl⟩ :=
      parse_board_eq_ok hok
    have hg2 : g ∈ gb.map Prod.snd := List.mem_of_mem_filter hg
    obtain ⟨p, hp, hps⟩ := List.mem_map.mp hg2
    rw [← hps] at hc
    rcases assignCards_cards_from (some m) _ _ _ hgb p hp c hc with
      ⟨q, hq, hcq⟩ | ⟨card, _, hi⟩
    · have := foldl_dictSet_cards_empty (sortLists data.lists) []
        (by simp) q hq
      rw [this] at hcq
      simp at hcq
    · unfold cardIdent at hi
      dsimp only at hi
      split at hi
      · exact absurd hi (by simp)
      · rename_i v hv
        cases hi
        exact ⟨card.name, hv⟩
  · intro hbad s hok
    obtain ⟨gb, va, first, last, hgb, hva, hfirst, hlast, _⟩ :=
      parse_board_eq_ok hok
    rcases hbad with ⟨card, hmem, hclosed, hnone⟩
    refine assignCards_unmapped m _ _ ⟨card, ?_, hnone⟩ gb hgb
    exact List.mem_filter.mpr ⟨hmem, by rw [hclosed]; rfl⟩

/-- C4 witness: with the example mapping, the stored identifier "ID7" is a
mapping value; and with an empty mapping the same document fails to
extract. -/
theorem parse_board_mapping_witness :
    (∃ k, dictGet exampleMapping k = some "ID7") ∧
    parse_board exampleDoc (some []) ≠ .ok (Sort'.mk "board" [] 0) :=
  ⟨(parse_board_mapping exampleDoc exampleMapping).1
      (Sort'.mk "board" [Group.mk "Todo" ["ID7"]] 2) (by rfl)
      (Group.mk "Todo" ["ID7"]) (by simp) "ID7" (by simp),
   (parse_board_mapping exampleDoc []).2
      ⟨Card.mk "card" "L1" false, by decide, rfl, rfl⟩ _⟩

/-- C8: the batch driver, run over a directory on which it succeeds,
produces exactly one Sort per immediate-child plain file whose name ends in
`.json`, in order; entries that are not plain files or lack the suffix
contribute nothing. -/
theorem parse_sorts_in_dir_per_json {entries : List DirEntry}
    {cm : Option CardMapping} {sorts : List Sort'}
    (h : parse_sorts_in_dir entries cm = .ok sorts) :
    List.Forall₂ (fun e s => parse_board e.content cm = .ok s)
      (entries.filter (fun e => e.isFile && strEndsWith e.fileName ".json"))
      sorts ∧
    sorts.length =
      (entries.filter
        (fun e => e.isFile && strEndsWith e.fileName ".json")).length := by
  have h2 := parseAll_forall₂ cm (get_paths_to_jsons_in_dir entries) sorts h
  exact ⟨h2, (List.Forall₂.length_eq h2).symm⟩

/-- C8 witness: a directory with one non-JSON file, two valid exports, and a
subdirectory named like a JSON file yields exactly the two Sorts of the two
exports. -/
theorem parse_sorts_in_dir_per_json_witness :
    List.Forall₂
      (fun (e : DirEntry) (s : Sort') =>
        parse_board e.content (none : Option CardMapping) = .ok s)
      (exampleDir.filter (fun e => e.isFile && strEndsWith e.fileName ".json"))
      [Sort'.mk "board" [Group.mk "Todo" ["card"]] 2,
       Sort'.mk "board" [Group.mk "Todo" ["card"]] 5] ∧
    ([Sort'.mk "board" [Group.mk "Todo" ["card"]] 2,
      Sort'.mk "board" [Group.mk "Todo" ["card"]] 5] : List Sort').length =
      (exampleDir.filter
        (fun e => e.isFile && strEndsWith e.fileName ".json")).length :=
  parse_sorts_in_dir_per_json (by rfl)

/-- C3 counterexample: extraction succeeds on `docDup`, whose `lists` array
repeats the id "B", and returns the group "Z" (source list `pos` 3) before
the group "X" (source list `pos` 2): the groups are not in ascending order
of their source lists' `pos` values.  The later binding for key "B" keeps
the key's first-insertion position in the dict while carrying the later
list's group. -/
theorem parse_board_order_counterexample :
    docDup.lists = [TrelloList.mk "A" "X" 2, TrelloList.mk "B" "Y" 1,
      TrelloList.mk "B" "Z" 3] ∧
    parse_board docDup none
      = .ok (Sort'.mk "b" [Group.mk "Z" ["c1"], Group.mk "X" ["c2"]] 0) :=
  ⟨rfl, rfl⟩

/-- C3 (amended): provided no two lists share an id, the groups of a
successful extraction correspond, name for name and in order, to an
order-preserving subsequence of the stably `pos`-sorted source lists; that
subsequence is ascending in `pos`, and (stability) any equal-`pos` run of
source lists keeps its original array order in the sorted sequence. -/
theorem parse_board_groups_ordered {data : Document} {cm : Option CardMapping}
    {s : Sort'} (hids : (data.lists.map TrelloList.id).Nodup)
    (h : parse_board data cm = .ok s) :
    ∃ ls : List TrelloList,
      ls.Sublist (sortLists data.lists) ∧
      s.groups.map Group.name = ls.map TrelloList.name ∧
      ls.Pairwise posLe ∧
      ∀ sub : List TrelloList, sub.Sublist data.lists →
        sub.Pairwise (fun a b => a.pos = b.pos) →
        sub.Sublist (sortLists data.lists) := by
  obtain ⟨gb, va, first, last, hgb, hva, hfirst, hlast, rfl⟩ := parse_board_eq_ok h
  have hperm : (sortLists data.lists).Perm data.lists :=
    List.perm_insertionSort posLe data.lists
  have hids' : ((sortLists data.lists).map TrelloList.id).Nodup :=
    ((hperm.map TrelloList.id).symm).nodup hids
  have hgb0 := foldl_groups_eq (sortLists data.lists) [] hids'
    (fun l _ => rfl)
  rw [hgb0] at hgb
  have hskel := assignCards_map_name cm _ _ _ hgb
  have hvals : (gb.map Prod.snd).map Group.name
      = (sortLists data.lists).map TrelloList.name := by
    have h2 := congrArg (List.map Prod.snd) hskel
    simp only [List.nil_append, List.map_map] at h2
    simpa [Function.comp] using h2
  obtain ⟨ls, hsub, hmap⟩ :=
    filter_corresponds (gb.map Prod.snd) (sortLists data.lists) hvals
  refine ⟨ls, hsub, hmap, ?_, ?_⟩
  · exact List.Pairwise.sublist hsub
      (List.sorted_insertionSort posLe data.lists)
  · intro sub hsubl hposeq
    exact List.sublist_insertionSort
      (hposeq.imp (fun hab => le_of_eq hab)) hsubl

/-- C3 witness: on the spec scenario (distinct list ids), the single group
"Todo" corresponds to the `pos`-sorted source lists as the amended claim
states. -/
theorem parse_board_groups_ordered_witness :
    ∃ ls : List TrelloList,
      ls.Sublist (sortLists exampleDoc.lists) ∧
      (Sort'.mk "board" [Group.mk "Todo" ["card"]] 2).groups.map Group.name
        = ls.map TrelloList.name ∧
      ls.Pairwise posLe ∧
      ∀ sub : List TrelloList, sub.Sublist exampleDoc.lists →
        sub.Pairwise (fun a b => a.pos = b.pos) →
        sub.Sublist (sortLists exampleDoc.lists) :=
  @parse_board_groups_ordered exampleDoc none
    (Sort'.mk "board" [Group.mk "Todo" ["card"]] 2) (by decide) (by rfl)

end Trello
